import Mathlib

/-!
# Verification of the kele static-blog content pipeline

The repository is a Vue 3 + vite-ssg personal blog.  Its content pipeline —
Frontmatter Extractor, Route Materializer and Post Renderer — is described in
the specification; the pipeline's implementation is delegated to third-party
libraries and is not part of the repository's own sources, which consist of
markdown content files, a README and presentational components.  Following the
specification (§4.1–§4.3, §6, §7) we model the pipeline as pure functions.
A content file is represented by its list of lines (the original text is the
`"\n"`-intercalation of that list).
-/

namespace Kele

/-! ## Character-level utilities -/

/-- `true` for horizontal whitespace characters (space, tab, carriage return). -/
def isWsChar (c : Char) : Bool := c == ' ' || c == '\t' || c == '\r'

/-- Drop leading whitespace characters. -/
def dropLeadingWs : List Char → List Char
  | [] => []
  | c :: cs => if isWsChar c then dropLeadingWs cs else c :: cs

/-- Trim whitespace from both ends of a character list. -/
def trimChars (cs : List Char) : List Char :=
  (dropLeadingWs (dropLeadingWs cs).reverse).reverse

/-- Split a character list at the first occurrence of `c`; `none` if `c` is absent. -/
def splitAtChar (c : Char) : List Char → Option (List Char × List Char)
  | [] => none
  | x :: xs =>
    if x == c then some ([], xs)
    else
      match splitAtChar c xs with
      | some (a, b) => some (x :: a, b)
      | none => none

def singleQuoteChar : Char := Char.ofNat 39

def doubleQuoteChar : Char := Char.ofNat 34

/-- Strip one matching pair of surrounding quotes (YAML-style scalar quoting). -/
def stripQuotes (cs : List Char) : List Char :=
  match cs.head?, cs.getLast? with
  | some a, some b =>
    if a == b && (a == singleQuoteChar || a == doubleQuoteChar) && 2 ≤ cs.length
    then (cs.drop 1).dropLast
    else cs
  | _, _ => cs

/-! ## Frontmatter Extractor (spec §4.1, §6)

Modelled from the spec: the extractor itself lives in the `gray-matter`
dependency, not in the repository sources.  Input text optionally begins with a
metadata block bounded by the fixed `---` marker; the block holds `key: value`
pairs; the remainder is the body.  An opened but unterminated block is a
`MalformedMetadataError` reporting file path and line. -/

/-- Parse one `key: value` metadata line (key before the first colon, value
after it, both trimmed, with YAML quotes stripped from the value). -/
def parseKV (line : String) : Option (String × String) :=
  match splitAtChar ':' line.toList with
  | none => none
  | some (k, v) => some ((trimChars k).asString, (stripQuotes (trimChars v)).asString)

/-- A metadata record: ordered key-value pairs. -/
abbrev Frontmatter := List (String × String)

/-- Look up a metadata key (first occurrence). -/
def getMeta (fm : Frontmatter) (k : String) : Option String :=
  (fm.find? (fun p => p.1 == k)).map Prod.snd

/-- Build errors (spec §7): fatal, abort the build. -/
inductive BuildError where
  | malformedMetadata (path : String) (line : Nat)
  | duplicateRoute (urlPath : String) (file1 : String) (file2 : String)
deriving Repr, DecidableEq

/-- The fixed metadata-block marker (spec §6). -/
def DELIMITER : String := "---"

/-- Scan for the closing delimiter: returns the lines before it and the lines
after it, or `none` when the block is never closed. -/
def splitAtClose : List String → Option (List String × List String)
  | [] => none
  | l :: ls =>
    if l == DELIMITER then some ([], ls)
    else
      match splitAtClose ls with
      | some (m, b) => some (l :: m, b)
      | none => none

/-- The Frontmatter Extractor: split a content file (as a list of lines) into a
metadata record and a body.  A file not starting with the delimiter has empty
metadata and the whole input as body; an unterminated metadata block is a fatal
`malformedMetadata` error naming the file and the opening line. -/
def extractFrontmatter (path : String) (lines : List String) :
    Except BuildError (Frontmatter × List String) :=
  match lines with
  | [] => .ok ([], [])
  | first :: rest =>
    if first == DELIMITER then
      match splitAtClose rest with
      | some (metaLines, bodyLines) => .ok (metaLines.filterMap parseKV, bodyLines)
      | none => .error (.malformedMetadata path 1)
    else .ok ([], lines)

/-! ## Date and duration parsing (spec §3, §6)

Modelled from the spec: `date` must parse to a valid calendar timestamp,
written in the corpus either as `YYYY-MM-DD` or as full ISO-8601 with time and
offset; `duration` is a reading-time string such as `20min` from which the
integer minute estimate is taken. -/

/-- The numeric value of a non-empty all-digit character list. -/
def digitsVal (cs : List Char) : Option Nat :=
  if cs ≠ [] ∧ cs.all (·.isDigit) then
    some (cs.foldl (fun n c => n * 10 + (c.toNat - 48)) 0)
  else none

def isLeapYear (y : Nat) : Bool :=
  (y % 4 == 0 && y % 100 != 0) || y % 400 == 0

def daysInMonth (y m : Nat) : Nat :=
  if m == 2 then (if isLeapYear y then 29 else 28)
  else if m == 4 || m == 6 || m == 9 || m == 11 then 30
  else 31

/-- Parse a `YYYY-MM-DD` calendar date, checking month and day ranges. -/
def parseDatePart (cs : List Char) : Option (Nat × Nat × Nat) :=
  match splitAtChar '-' cs with
  | none => none
  | some (ys, rest) =>
    match splitAtChar '-' rest with
    | none => none
    | some (ms, ds) =>
      match digitsVal ys, digitsVal ms, digitsVal ds with
      | some y, some m, some d =>
        if ys.length = 4 ∧ ms.length = 2 ∧ ds.length = 2 ∧
           1 ≤ m ∧ m ≤ 12 ∧ 1 ≤ d ∧ d ≤ daysInMonth y m
        then some (y, m, d) else none
      | _, _, _ => none

/-- A two-digit field whose value is at most `hi`. -/
def checkTwo (cs : List Char) (hi : Nat) : Bool :=
  match digitsVal cs with
  | some v => cs.length == 2 && decide (v ≤ hi)
  | none => false

/-- Validate an ISO-8601 clock `HH:MM:SS` or `HH:MM:SS.fff`. -/
def validClock (cs : List Char) : Bool :=
  match splitAtChar ':' cs with
  | none => false
  | some (hh, rest) =>
    match splitAtChar ':' rest with
    | none => false
    | some (mm, ssf) =>
      match splitAtChar '.' ssf with
      | some (ss, frac) =>
        checkTwo hh 23 && checkTwo mm 59 && checkTwo ss 59 &&
          frac ≠ [] && frac.all (·.isDigit)
      | none => checkTwo hh 23 && checkTwo mm 59 && checkTwo ssf 59

/-- Validate a `HH:MM` UTC-offset body. -/
def validOffset (cs : List Char) : Bool :=
  match splitAtChar ':' cs with
  | some (hh, mm) => checkTwo hh 23 && checkTwo mm 59
  | none => false

/-- `true` when the string is a valid timestamp: a calendar date, optionally
followed by `T`, a clock and a numeric offset (or trailing `Z`). -/
def dateParses (s : String) : Bool :=
  match splitAtChar 'T' s.toList with
  | none => (parseDatePart s.toList).isSome
  | some (d, t) =>
    (parseDatePart d).isSome &&
      match splitAtChar '+' t with
      | some (clk, off) => validClock clk && validOffset off
      | none => t.getLast? == some 'Z' && validClock t.dropLast

/-- Parse a reading-time string: digits optionally followed by `min`. -/
def parseDuration (s : String) : Option Nat :=
  let cs := trimChars s.toList
  let ds := cs.takeWhile (·.isDigit)
  let rest := cs.drop ds.length
  if rest = ['m', 'i', 'n'] ∨ rest = [] then digitsVal ds else none

/-! ## Route Materializer (spec §4.2)

Modelled from the spec: file-based routing is delegated to `vite-plugin-pages`;
per the spec, directory nesting maps to URL path segments, the `.md` extension
is dropped, an `index` file maps to its directory's own path, and two files
normalizing to the same URL path are a fatal `duplicateRoute` error naming both
source files. -/

/-- Split a character list on a separator character (`splitChars c` never
returns `[]`; splitting the empty list gives `[[]]`). -/
def splitChars (sep : Char) : List Char → List (List Char)
  | [] => [[]]
  | c :: cs =>
    let r := splitChars sep cs
    if c == sep then [] :: r
    else
      match r with
      | [] => [[c]]
      | s :: ss => (c :: s) :: ss

/-- Remove a suffix from a character list, or `none` when it is not a suffix. -/
def dropSuffixChars (tail cs : List Char) : Option (List Char) :=
  if tail.reverse.isPrefixOf cs.reverse then
    some (cs.reverse.drop tail.length).reverse
  else none

/-- Strip a trailing `.md` extension. -/
def stripMdExt (p : String) : String :=
  match dropSuffixChars ".md".toList p.toList with
  | some cs => cs.asString
  | none => p

/-- Split a file path into its `/`-separated segments. -/
def splitPath (p : String) : List String :=
  (splitChars '/' p.toList).map List.asString

/-- The URL segments of a content file: path segments without the `.md`
extension, with a trailing `index` segment mapping to the directory itself. -/
def routeSegs (p : String) : List String :=
  let segs := splitPath (stripMdExt p)
  if segs.getLast? == some "index" then segs.dropLast else segs

/-- The URL path a content file normalizes to. -/
def routeOfPath (p : String) : String :=
  "/" ++ String.intercalate "/" (routeSegs p)

/-- Accumulating worker for the Route Materializer: `acc` holds already
materialized `(urlPath, sourceFile)` pairs, newest first. -/
def materializeGo (acc : List (String × String)) :
    List String → Except BuildError (List (String × String))
  | [] => .ok acc.reverse
  | f :: fs =>
    let r := routeOfPath f
    match acc.find? (fun p => p.1 == r) with
    | some p => .error (.duplicateRoute r p.2 f)
    | none => materializeGo ((r, f) :: acc) fs

/-- The Route Materializer: compute the `(urlPath, sourceFile)` table of a
content file listing, failing with `duplicateRoute` on a collision. -/
def materializeRoutes (files : List String) : Except BuildError (List (String × String)) :=
  materializeGo [] files

/-! ## The Post data model (spec §3) -/

/-- One article, as described by the data model. -/
structure Post where
  slug : String
  title : String
  description : Option String
  date : String
  lang : Option String
  durationMinutes : Option Nat
  subtitle : Option String
  body : List String
deriving Repr, DecidableEq

/-- Assemble a `Post` from a file path, its metadata record and its body. -/
def mkPost (path : String) (fm : Frontmatter) (body : List String) : Post :=
  { slug := routeOfPath path
    title := (getMeta fm "title").getD ""
    description := getMeta fm "description"
    date := (getMeta fm "date").getD ""
    lang := getMeta fm "lang"
    durationMinutes := (getMeta fm "duration").bind parseDuration
    subtitle := getMeta fm "subtitle"
    body := body }

/-! ## Post Renderer (spec §4.3, §7)

Modelled from the spec: markdown rendering is delegated to `markdown-it` with
Prism highlighting.  Fenced code blocks with a known highlighting grammar
render with language-tagged markup; an unknown language falls back to plain
preformatted text with a non-fatal warning; unresolvable internal links are
retained as-is with a non-fatal warning.  Rendering never fails. -/

/-- Non-fatal rendering conditions (spec §7): logged only. -/
inductive RenderWarning where
  | unsupportedHighlightLanguage (lang : String)
  | unresolvedReference (href : String)
deriving Repr, DecidableEq

/-- Languages with a highlighting grammar available to the renderer. -/
def knownLangs : List String :=
  ["typescript", "javascript", "ts", "js", "tsx", "jsx", "vue",
   "html", "css", "json", "bash", "text", "yaml", "markdown"]

/-- HTML-escape one character. -/
def escapeHtmlChar (c : Char) : List Char :=
  if c == '<' then "&lt;".toList
  else if c == '>' then "&gt;".toList
  else if c == '&' then "&amp;".toList
  else [c]

/-- HTML-escape a string. -/
def escapeHtml (s : String) : String :=
  (s.toList.foldr (fun c acc => escapeHtmlChar c ++ acc) []).asString

/-- Render one fenced code block: highlighting markup when the language has a
grammar, otherwise plain preformatted text plus a logged warning. -/
def renderCodeBlock (lang : String) (code : List String) : String × List RenderWarning :=
  let content := String.intercalate "\n" (code.map escapeHtml)
  if knownLangs.contains lang then
    ("<pre class=\"language-" ++ lang ++ "\"><code class=\"language-" ++ lang ++
       "\">" ++ content ++ "</code></pre>", [])
  else
    ("<pre><code>" ++ content ++ "</code></pre>",
     [.unsupportedHighlightLanguage lang])

/-- The fenced-code-block marker. -/
def fenceMarker : String := "```"

/-- `true` when a line opens or closes a fenced code block. -/
def isFence (line : String) : Bool :=
  fenceMarker.toList.isPrefixOf line.toList

/-- The language label of a fence-opening line. -/
def fenceLang (line : String) : String :=
  (trimChars (line.toList.drop 3)).asString

/-- Renderer state: accumulated html, accumulated warnings, and the currently
open code fence (its language and collected lines, newest first), if any. -/
structure RenderState where
  html : String
  warnings : List RenderWarning
  fence : Option (String × List String)
deriving Repr, DecidableEq

/-- Process one body line. -/
def renderLine (st : RenderState) (line : String) : RenderState :=
  match st.fence with
  | some (lang, acc) =>
    if isFence line then
      let bw := renderCodeBlock lang acc.reverse
      { html := st.html ++ bw.1, warnings := st.warnings ++ bw.2, fence := none }
    else { st with fence := some (lang, line :: acc) }
  | none =>
    if isFence line then { st with fence := some (fenceLang line, []) }
    else if line == "" then st
    else { st with html := st.html ++ "<p>" ++ escapeHtml line ++ "</p>" }

/-- Render a post body (its list of lines) to an html fragment plus the logged
warnings.  Total: rendering never fails. -/
def renderBody (lines : List String) : String × List RenderWarning :=
  let st := lines.foldl renderLine { html := "", warnings := [], fence := none }
  match st.fence with
  | some (lang, acc) =>
    let bw := renderCodeBlock lang acc.reverse
    (st.html ++ bw.1, st.warnings ++ bw.2)
  | none => (st.html, st.warnings)

/-- Resolve one link against the route table: an internal link with no matching
route is retained as-is with a non-fatal warning. -/
def resolveLink (routes : List String) (href : String) : String × List RenderWarning :=
  if href.toList.head? == some '/' && !(routes.contains href) then
    (href, [.unresolvedReference href])
  else (href, [])

/-- Render a whole page: the title wrapped in the page template around the
rendered body fragment. -/
def renderPage (post : Post) : String × List RenderWarning :=
  let bw := renderBody post.body
  ("<main><h1>" ++ escapeHtml post.title ++ "</h1>" ++ bw.1 ++ "</main>", bw.2)

/-! ## The production build (spec §2, §5, §6)

Modelled from the spec: the build is a pure fold over the content file
listing — extract every file's metadata, materialize the route table, render
every page.  Fatal errors abort with a non-zero exit code; there is no
persisted state, the output is regenerated from scratch on every run. -/

/-- Extract the frontmatter of every content file, stopping at the first fatal
error. -/
def extractAll : List (String × List String) →
    Except BuildError (List (String × Frontmatter × List String))
  | [] => .ok []
  | (p, ls) :: fs =>
    match extractFrontmatter p ls with
    | .error e => .error e
    | .ok fmb =>
      match extractAll fs with
      | .error e => .error e
      | .ok rest => .ok ((p, fmb.1, fmb.2) :: rest)

/-- The whole static build: content files in → `(urlPath, renderedHtml)` pairs
out, or a fatal error. -/
def buildSite (files : List (String × List String)) :
    Except BuildError (List (String × String)) :=
  match extractAll files with
  | .error e => .error e
  | .ok posts =>
    match materializeRoutes (files.map Prod.fst) with
    | .error e => .error e
    | .ok _ =>
      .ok (posts.map (fun t => (routeOfPath t.1, (renderPage (mkPost t.1 t.2.1 t.2.2)).1)))

/-- Process exit code of a build (spec §6): 0 on success, non-zero on failure. -/
def exitCode : Except BuildError (List (String × String)) → Nat
  | .ok _ => 0
  | .error _ => 1

/-- Modelled from the spec: §6 Persisted state — the static output directory is
fully regenerated on each build, so the production build ignores whatever the
output directory held before. -/
def runProductionBuild (_prevOutput : List (String × String))
    (files : List (String × List String)) : Except BuildError (List (String × String)) :=
  buildSite files

/-! ## The shipped content corpus

The opening lines of every shipped content file (the eleven markdown posts),
embedded verbatim: the complete frontmatter block plus the first body lines.
The bodies are truncated after their first lines — the extractor never looks
past the closing delimiter, and only non-emptiness of the body is at stake
below, which truncation preserves (every body continues after `[[toc]]`). -/

def aiToolkit2025 : List String :=
  ["---",
   "title: 前端工程师的 AI 工具链：2025 年我的效率提升方案",
   "description: 分享我日常使用的 AI 工具、配置方案和最佳实践",
   "date: 2025-07-03",
   "lang: zh",
   "duration: 20min",
   "subtitle: \x27Author: Kele\x27",
   "---",
   "",
   "[[toc]]"]

def electronAppArchitecture : List String :=
  ["---",
   "title: Electron 应用架构设计与进程通信",
   "description: 深入理解 Electron 多进程架构，掌握进程间通信的最佳实践",
   "date: 2024-12-05T10:00:00.000+00:00",
   "lang: zh",
   "duration: 18min",
   "subtitle: \"Author: Kele\"",
   "---",
   "",
   "[[toc]]"]

def frontendEngineering : List String :=
  ["---",
   "title: 前端工程化：构建高效的开发工作流",
   "description: 从代码规范到 CI/CD，打造现代化的前端工程体系",
   "date: 2024-10-20",
   "lang: zh",
   "duration: 18min",
   "subtitle: \x27Author: Kele\x27",
   "---",
   "",
   "[[toc]]"]

def nextjsFullstackPatterns : List String :=
  ["---",
   "title: Next.js 全栈开发模式与 API 设计",
   "description: 探索 Next.js App Router 全栈开发的最佳实践和 API 设计模式",
   "date: 2024-10-28T10:00:00.000+00:00",
   "lang: zh",
   "duration: 18min",
   "subtitle: \x27Author: Kele\x27",
   "---",
   "",
   "[[toc]]"]

def typescriptAdvancedPatterns : List String :=
  ["---",
   "title: TypeScript 在 Vue 3 项目中的实践指南",
   "description: 从基础到实战，掌握 Vue 3 + TypeScript 开发的最佳实践",
   "date: 2024-11-20",
   "lang: zh",
   "duration: 20min",
   "subtitle: \x27Author: Kele\x27",
   "---",
   "",
   "[[toc]]"]

def vueComposablesDesign : List String :=
  ["---",
   "title: Vue 3 Composables 设计模式与最佳实践",
   "description: 深入探讨 Vue 3 组合式函数的设计原则、常见模式和工程实践",
   "date: 2024-12-20T10:00:00.000+00:00",
   "lang: zh",
   "duration: 15min",
   "subtitle: \x27Author: Kele\x27",
   "---",
   "",
   "[[toc]]"]

def vueReactComparison : List String :=
  ["---",
   "title: Vue 3 vs React：设计理念与实现原理对比",
   "description: 深入对比 Vue 3 和 React 的核心语法、设计哲学与底层实现机制",
   "date: 2024-11-28T10:00:00.000+00:00",
   "lang: zh",
   "duration: 22min",
   "subtitle: \x27Author: Kele\x27",
   "---",
   "",
   "[[toc]]"]

def reactNativeExpoFlow : List String :=
  ["---",
   "title: React Native (Expo) 标准开发流程",
   "description: 基于 React Native 快速开发跨端应用",
   "date: 2025-01-06",
   "lang: zh",
   "duration: 10min",
   "subtitle: \x27Author: Kele\x27",
   "---",
   "",
   "[[toc]]"]

def aiFrontendWorkflow : List String :=
  ["---",
   "title: 从需求到上线：AI 如何改变我的前端研发流程",
   "description: 分享 AI 工具如何融入前端研发的每个阶段，以及带来的效率变革",
   "date: 2025-04-07",
   "lang: zh",
   "duration: 18min",
   "subtitle: \x27Author: Kele\x27",
   "---",
   "",
   "[[toc]]"]

def nextjsServerComponents : List String :=
  ["---",
   "title: Next.js Server Components 深度解析",
   "description: 从原理到实践，全面理解 React Server Components 在 Next.js 中的应用",
   "date: 2024-12-10T10:00:00.000+00:00",
   "lang: zh",
   "duration: 20min",
   "subtitle: \x27Author: Kele\x27",
   "---",
   "",
   "[[toc]]"]

def microFrontendPractice : List String :=
  ["---",
   "title: 微前端架构实践：从 0 到 1 的落地经验",
   "description: 分享企业级微前端架构的设计思路、技术选型和踩坑经验",
   "date: 2024-11-12",
   "lang: zh",
   "duration: 20min",
   "subtitle: \x27Author: Kele\x27",
   "---",
   "",
   "[[toc]]"]

/-- Every shipped content file. -/
def corpusFiles : List (List String) :=
  [aiToolkit2025, electronAppArchitecture, frontendEngineering,
   nextjsFullstackPatterns, typescriptAdvancedPatterns, vueComposablesDesign,
   vueReactComparison, reactNativeExpoFlow, aiFrontendWorkflow,
   nextjsServerComponents, microFrontendPractice]

/-- The corpus invariant: the file opens with the delimiter on its first line,
extraction succeeds (so the metadata block is closed) with a non-empty metadata
record, the record supplies a non-empty title, a parseable date, `lang` `zh`, a
parseable duration and a non-empty subtitle, and the body is non-empty. -/
def corpusFileOk (f : List String) : Bool :=
  f.head? == some DELIMITER &&
  match extractFrontmatter "" f with
  | .ok (fm, body) =>
    !fm.isEmpty &&
    (match getMeta fm "title" with | some t => !(t == "") | none => false) &&
    (match getMeta fm "date" with | some d => dateParses d | none => false) &&
    getMeta fm "lang" == some "zh" &&
    (match getMeta fm "duration" with | some s => (parseDuration s).isSome | none => false) &&
    (match getMeta fm "subtitle" with | some u => !(u == "") | none => false) &&
    body.any (fun l => !(l == ""))
  | .error _ => false

/-! ## Extractor lemmas -/

theorem splitAtClose_append (m b : List String) (hm : DELIMITER ∉ m) :
    splitAtClose (m ++ DELIMITER :: b) = some (m, b) := by
  induction m with
  | nil => simp [splitAtClose]
  | cons l ls ih =>
    have hl : l ≠ DELIMITER := fun h => hm (h ▸ List.mem_cons_self l ls)
    have hm' : DELIMITER ∉ ls := fun h => hm (List.mem_cons_of_mem l h)
    simp [splitAtClose, hl, ih hm']

theorem splitAtClose_eq_none {ls : List String} :
    splitAtClose ls = none ↔ DELIMITER ∉ ls := by
  induction ls with
  | nil => simp [splitAtClose]
  | cons l ls ih =>
    by_cases hl : l = DELIMITER
    · subst hl; simp [splitAtClose]
    · simp only [splitAtClose, beq_iff_eq, hl, if_false]
      cases h : splitAtClose ls with
      | some p =>
        have hmem : DELIMITER ∈ ls := by
          by_contra hno
          rw [ih.mpr hno] at h; cases h
        simp [hmem, List.mem_cons]
      | none => simp [List.mem_cons, hl, eq_comm, ih.mp h]

/-- C4: the Frontmatter Extractor is modelled as a pure function; on any input
that does not begin with a metadata block (its first line is not the `---`
delimiter, or it is empty) it returns an empty metadata record together with
the entire input unchanged as the body. -/
theorem extractor_empty_metadata_on_no_block (path : String) (lines : List String)
    (h : lines.head? ≠ some DELIMITER) :
    extractFrontmatter path lines = .ok ([], lines) := by
  cases lines with
  | nil => rfl
  | cons first rest =>
    have hne : first ≠ DELIMITER := by simpa using h
    simp [extractFrontmatter, hne]

/-- Witness for C4 at a concrete input. -/
theorem extractor_empty_metadata_on_no_block_witness :
    extractFrontmatter "about.md" ["hello", "world"] = .ok ([], ["hello", "world"]) :=
  extractor_empty_metadata_on_no_block "about.md" ["hello", "world"] (by decide)

theorem extractAll_ok_mem {files : List (String × List String)}
    {res : List (String × Frontmatter × List String)}
    (h : extractAll files = .ok res) {p : String} {ls : List String}
    (hmem : (p, ls) ∈ files) : ∃ fmb, extractFrontmatter p ls = .ok fmb := by
  induction files generalizing res with
  | nil => cases hmem
  | cons f fs ih =>
    obtain ⟨q, qs⟩ := f
    simp only [extractAll] at h
    cases hq : extractFrontmatter q qs with
    | error e => rw [hq] at h; cases h
    | ok fmb =>
      rw [hq] at h
      cases hrest : extractAll fs with
      | error e => rw [hrest] at h; cases h
      | ok rest =>
        rcases List.mem_cons.mp hmem with heq | hmem'
        · obtain ⟨rfl, rfl⟩ := Prod.mk.injEq .. ▸ heq
          exact ⟨fmb, hq⟩
        · exact ih hrest hmem'

theorem buildSite_ok_extractAll {files : List (String × List String)}
    {out : List (String × String)} (h : buildSite files = .ok out) :
    ∃ posts, extractAll files = .ok posts := by
  simp only [buildSite] at h
  cases hx : extractAll files with
  | error e => rw [hx] at h; cases h
  | ok posts => exact ⟨posts, rfl⟩

/-- C2: the Frontmatter Extractor fails with `MalformedMetadataError` exactly
when the metadata block is opened but never closed; the error value reports the
offending file path and the opening line, and any such file in the content
tree makes the build abort with a non-zero exit code. -/
theorem malformedMetadata_iff_unterminated (path : String) (lines : List String)
    (files : List (String × List String)) :
    (extractFrontmatter path lines = .error (.malformedMetadata path 1) ↔
      ∃ rest, lines = DELIMITER :: rest ∧ DELIMITER ∉ rest) ∧
    ((path, lines) ∈ files →
      extractFrontmatter path lines = .error (.malformedMetadata path 1) →
      exitCode (buildSite files) ≠ 0) := by
  constructor
  · constructor
    · intro h
      cases lines with
      | nil => cases h
      | cons first rest =>
        by_cases hf : first = DELIMITER
        · subst hf
          refine ⟨rest, rfl, ?_⟩
          simp only [extractFrontmatter, beq_self_eq_true, if_true] at h
          cases hs : splitAtClose rest with
          | some p => rw [hs] at h; cases h
          | none => exact splitAtClose_eq_none.mp hs
        · simp [extractFrontmatter, hf] at h
    · rintro ⟨rest, rfl, hrest⟩
      simp [extractFrontmatter, splitAtClose_eq_none.mpr hrest]
  · intro hmem herr
    cases hb : buildSite files with
    | error e => simp [exitCode]
    | ok out =>
      obtain ⟨posts, hx⟩ := buildSite_ok_extractAll hb
      obtain ⟨fmb, hok⟩ := extractAll_ok_mem hx hmem
      rw [herr] at hok
      cases hok

/-- Witness for C2: a file whose metadata block is never closed. -/
theorem malformedMetadata_iff_unterminated_witness :
    extractFrontmatter "post.md" ["---", "title: x"] =
      .error (.malformedMetadata "post.md" 1) ∧
    exitCode (buildSite [("post.md", ["---", "title: x"])]) ≠ 0 := by
  have h := malformedMetadata_iff_unterminated "post.md" ["---", "title: x"]
    [("post.md", ["---", "title: x"])]
  have herr := h.1.mpr ⟨["title: x"], rfl, by decide⟩
  exact ⟨herr, h.2 (by simp) herr⟩

/-- C3: for a valid content file — one made of a delimiter-bounded metadata
block whose record carries a non-empty `title`, followed by a body — the
extractor returns that record and exactly the body, and the body re-concatenated
with the original metadata block reconstructs the input file byte-identically. -/
theorem extractor_roundtrip (path : String) (m b : List String) (t : String)
    (hm : DELIMITER ∉ m)
    (ht : getMeta (m.filterMap parseKV) "title" = some t) (hne : t ≠ "") :
    ∃ fm, extractFrontmatter path (DELIMITER :: m ++ DELIMITER :: b) = .ok (fm, b) ∧
      getMeta fm "title" = some t ∧ t ≠ "" ∧
      (DELIMITER :: m ++ [DELIMITER]) ++ b = DELIMITER :: m ++ DELIMITER :: b ∧
      String.intercalate "\n" ((DELIMITER :: m ++ [DELIMITER]) ++ b) =
        String.intercalate "\n" (DELIMITER :: m ++ DELIMITER :: b) := by
  refine ⟨m.filterMap parseKV, ?_, ht, hne, ?_, ?_⟩
  · simp [extractFrontmatter, splitAtClose_append m b hm]
  · simp
  · simp

/-- Witness for C3 at a concrete file. -/
theorem extractor_roundtrip_witness :
    ∃ fm, extractFrontmatter "posts/hi.md"
        (DELIMITER :: ["title: Hello", "date: 2024-01-01"] ++ DELIMITER :: ["", "hi there"]) =
        .ok (fm, ["", "hi there"]) ∧
      getMeta fm "title" = some "Hello" ∧ "Hello" ≠ "" ∧
      (DELIMITER :: ["title: Hello", "date: 2024-01-01"] ++ [DELIMITER]) ++ ["", "hi there"] =
        DELIMITER :: ["title: Hello", "date: 2024-01-01"] ++ DELIMITER :: ["", "hi there"] ∧
      String.intercalate "\n"
          ((DELIMITER :: ["title: Hello", "date: 2024-01-01"] ++ [DELIMITER]) ++ ["", "hi there"]) =
        String.intercalate "\n"
          (DELIMITER :: ["title: Hello", "date: 2024-01-01"] ++ DELIMITER :: ["", "hi there"]) :=
  extractor_roundtrip "posts/hi.md" ["title: Hello", "date: 2024-01-01"] ["", "hi there"]
    "Hello" (by decide) (by decide) (by decide)

/-! ## Route Materializer lemmas -/

theorem materializeGo_ok_nodup :
    ∀ (fs : List String) (acc : List (String × String)),
      (acc.map Prod.fst).Nodup →
      ∀ res, materializeGo acc fs = .ok res → (res.map Prod.fst).Nodup := by
  intro fs
  induction fs with
  | nil =>
    intro acc hacc res h
    simp only [materializeGo] at h
    cases h
    simpa using hacc
  | cons f fs ih =>
    intro acc hacc res h
    simp only [materializeGo] at h
    cases hfind : acc.find? (fun p => p.1 == routeOfPath f) with
    | some p => rw [hfind] at h; cases h
    | none =>
      rw [hfind] at h
      have hnotin : routeOfPath f ∉ acc.map Prod.fst := by
        intro hmem
        obtain ⟨p, hp, hfst⟩ := List.mem_map.mp hmem
        have := List.find?_eq_none.mp hfind p hp
        simp [hfst] at this
      exact ih ((routeOfPath f, f) :: acc)
        (by rw [List.map_cons]; exact List.nodup_cons.mpr ⟨hnotin, hacc⟩) res h

theorem materializeGo_ok_iff :
    ∀ (fs : List String) (acc : List (String × String)),
      (acc.map Prod.fst).Nodup →
      ((∃ res, materializeGo acc fs = .ok res) ↔
        ((acc.map Prod.fst) ++ fs.map routeOfPath).Nodup) := by
  intro fs
  induction fs with
  | nil =>
    intro acc hacc
    simp [materializeGo, hacc]
  | cons f fs ih =>
    intro acc hacc
    cases hfind : acc.find? (fun p => p.1 == routeOfPath f) with
    | some p =>
      have hstep : materializeGo acc (f :: fs) =
          .error (.duplicateRoute (routeOfPath f) p.2 f) := by
        simp [materializeGo, hfind]
      have hp := List.find?_some hfind
      have hpmem := List.mem_of_find?_eq_some hfind
      have hmem : routeOfPath f ∈ acc.map Prod.fst :=
        List.mem_map.mpr ⟨p, hpmem, by simpa using hp⟩
      rw [hstep, List.map_cons]
      constructor
      · rintro ⟨res, hres⟩; cases hres
      · intro hnd
        exfalso
        rcases List.nodup_cons.mp (List.nodup_middle.mp hnd) with ⟨hnotmem, _⟩
        exact hnotmem (List.mem_append_left _ hmem)
    | none =>
      have hstep : materializeGo acc (f :: fs) =
          materializeGo ((routeOfPath f, f) :: acc) fs := by
        simp [materializeGo, hfind]
      have hnotin : routeOfPath f ∉ acc.map Prod.fst := by
        intro hmem
        obtain ⟨p, hp, hfst⟩ := List.mem_map.mp hmem
        have := List.find?_eq_none.mp hfind p hp
        simp [hfst] at this
      have hacc' : (((routeOfPath f, f) :: acc).map Prod.fst).Nodup := by
        rw [List.map_cons]; exact List.nodup_cons.mpr ⟨hnotin, hacc⟩
      rw [hstep, ih ((routeOfPath f, f) :: acc) hacc']
      have h1 : (((routeOfPath f, f) :: acc).map Prod.fst) ++ fs.map routeOfPath =
          routeOfPath f :: ((acc.map Prod.fst) ++ fs.map routeOfPath) := by simp
      rw [h1, List.map_cons, List.nodup_middle]

theorem materializeGo_error_shape :
    ∀ (fs : List String) (acc : List (String × String)) (e : BuildError),
      (∀ p ∈ acc, p.1 = routeOfPath p.2) →
      ((acc.map Prod.snd) ++ fs).Nodup →
      materializeGo acc fs = .error e →
      ∃ r f1 f2, e = .duplicateRoute r f1 f2 ∧
        (f1 ∈ acc.map Prod.snd ∨ f1 ∈ fs) ∧ f2 ∈ fs ∧ f1 ≠ f2 ∧
        routeOfPath f1 = r ∧ routeOfPath f2 = r := by
  intro fs
  induction fs with
  | nil =>
    intro acc e _ _ h
    simp only [materializeGo] at h
    cases h
  | cons f fs ih =>
    intro acc e hacc hnd h
    simp only [materializeGo] at h
    cases hfind : acc.find? (fun p => p.1 == routeOfPath f) with
    | some p =>
      rw [hfind] at h
      cases h
      have hp := List.find?_some hfind
      have hpmem := List.mem_of_find?_eq_some hfind
      have hroute : p.1 = routeOfPath p.2 := hacc p hpmem
      have hpr : p.1 = routeOfPath f := by simpa using hp
      have hsnd : p.2 ∈ acc.map Prod.snd := List.mem_map.mpr ⟨p, hpmem, rfl⟩
      have hfnot : f ∉ acc.map Prod.snd := by
        have hdisj := List.disjoint_of_nodup_append hnd
        intro hmem
        exact List.disjoint_left.mp hdisj hmem (List.mem_cons_self f fs)
      refine ⟨routeOfPath f, p.2, f, rfl, Or.inl hsnd,
        List.mem_cons_self f fs, ?_, by rw [← hroute, hpr], rfl⟩
      intro heq
      exact hfnot (heq ▸ hsnd)
    | none =>
      rw [hfind] at h
      have hacc' : ∀ p ∈ ((routeOfPath f, f) :: acc), p.1 = routeOfPath p.2 := by
        intro p hp
        rcases List.mem_cons.mp hp with rfl | hp'
        · rfl
        · exact hacc p hp'
      have hnd' : ((((routeOfPath f, f) :: acc).map Prod.snd) ++ fs).Nodup := by
        rw [List.map_cons, List.cons_append]
        exact List.nodup_middle.mp hnd
      obtain ⟨r, f1, f2, he, hf1, hf2, hne, hr1, hr2⟩ := ih _ e hacc' hnd' h
      refine ⟨r, f1, f2, he, ?_, List.mem_cons_of_mem f hf2, hne, hr1, hr2⟩
      rcases hf1 with hf1 | hf1
      · simp only [List.map_cons, List.mem_cons] at hf1
        rcases hf1 with rfl | hf1
        · exact Or.inr (List.mem_cons_self f1 fs)
        · exact Or.inl hf1
      · exact Or.inr (List.mem_cons_of_mem f hf1)

/-- C1: over pairwise-distinct content files, a successful Route Materializer
run yields pairwise-distinct `urlPath` values, and whenever two distinct files
normalize to the same `urlPath` the build fails with a `DuplicateRouteError`
naming two distinct colliding source files. -/
theorem routeMaterializer_no_duplicate_urlPaths (files : List String)
    (hnd : files.Nodup) :
    (∀ routes, materializeRoutes files = .ok routes → (routes.map Prod.fst).Nodup) ∧
    (∀ f1 f2, f1 ∈ files → f2 ∈ files → f1 ≠ f2 →
      routeOfPath f1 = routeOfPath f2 →
      ∃ r g1 g2, materializeRoutes files = .error (.duplicateRoute r g1 g2) ∧
        g1 ∈ files ∧ g2 ∈ files ∧ g1 ≠ g2 ∧
        routeOfPath g1 = r ∧ routeOfPath g2 = r) := by
  constructor
  · intro routes h
    exact materializeGo_ok_nodup files [] (by simp) routes h
  · intro f1 f2 h1 h2 hne heq
    have hnotnodup : ¬ (files.map routeOfPath).Nodup := by
      intro hmap
      exact hne (List.inj_on_of_nodup_map hmap h1 h2 heq)
    cases hres : materializeRoutes files with
    | ok res =>
      exfalso
      apply hnotnodup
      have := (materializeGo_ok_iff files [] (by simp)).mp ⟨res, hres⟩
      simpa using this
    | error e =>
      obtain ⟨r, g1, g2, he, hg1, hg2, hgne, hr1, hr2⟩ :=
        materializeGo_error_shape files [] e (by simp) (by simpa using hnd) hres
      subst he
      rcases hg1 with hg1 | hg1
      · simp at hg1
      · exact ⟨r, g1, g2, rfl, hg1, hg2, hgne, hr1, hr2⟩

/-- Witness for C1, spec Scenario B: `posts/a/index.md` and `posts/a.md` both
normalize to `/posts/a` and the build fails naming both files. -/
theorem routeMaterializer_no_duplicate_urlPaths_witness :
    (∃ r g1 g2,
      materializeRoutes ["posts/a/index.md", "posts/a.md"] =
        .error (.duplicateRoute r g1 g2) ∧
      g1 ∈ ["posts/a/index.md", "posts/a.md"] ∧
      g2 ∈ ["posts/a/index.md", "posts/a.md"] ∧ g1 ≠ g2 ∧
      routeOfPath g1 = r ∧ routeOfPath g2 = r) ∧
    materializeRoutes ["posts/a/index.md", "posts/a.md"] =
      .error (.duplicateRoute "/posts/a" "posts/a/index.md" "posts/a.md") :=
  ⟨(routeMaterializer_no_duplicate_urlPaths ["posts/a/index.md", "posts/a.md"]
      (by decide)).2 "posts/a/index.md" "posts/a.md" (by decide) (by decide)
      (by decide) (by decide),
   by rfl⟩

/-! ## Build determinism, empty bodies, durations, corpus invariant -/

/-- C6: the production build is deterministic — two runs on an unchanged
content tree produce identical, hence byte-identical, static output — and the
output is fully regenerated: the result never depends on the previous contents
of the static output directory (in particular not on the output of the
preceding run). -/
theorem build_idempotent (prev1 prev2 : List (String × String))
    (files : List (String × List String)) :
    runProductionBuild prev1 files = runProductionBuild prev2 files ∧
    runProductionBuild prev1 files = buildSite files ∧
    runProductionBuild
        (match buildSite files with | .ok out => out | .error _ => []) files =
      buildSite files :=
  ⟨rfl, rfl, rfl⟩

/-- C8: a content file whose body is empty after metadata extraction is
accepted: extraction succeeds with an empty body, the whole build succeeds,
and the rendered content fragment for the empty body is empty — no error. -/
theorem empty_body_accepted (path : String) (m : List String)
    (hm : DELIMITER ∉ m) :
    extractFrontmatter path (DELIMITER :: m ++ [DELIMITER]) =
      .ok (m.filterMap parseKV, []) ∧
    renderBody [] = ("", []) ∧
    ∃ out, buildSite [(path, DELIMITER :: m ++ [DELIMITER])] = .ok out := by
  have hx : extractFrontmatter path (DELIMITER :: m ++ [DELIMITER]) =
      .ok (m.filterMap parseKV, []) := by
    simp [extractFrontmatter, splitAtClose_append m [] hm]
  refine ⟨hx, rfl,
    ⟨[(routeOfPath path, (renderPage (mkPost path (m.filterMap parseKV) [])).1)], ?_⟩⟩
  have h1 : extractAll [(path, DELIMITER :: m ++ [DELIMITER])] =
      .ok [(path, m.filterMap parseKV, [])] := by
    unfold extractAll
    rw [hx]
    rfl
  have h2 : materializeRoutes [path] = .ok [(routeOfPath path, path)] := rfl
  unfold buildSite
  rw [h1]
  simp only [List.map_cons, List.map_nil]
  rw [h2]

/-- Witness for C8 at a concrete file with an empty body. -/
theorem empty_body_accepted_witness :
    extractFrontmatter "posts/empty.md" (DELIMITER :: ["title: T"] ++ [DELIMITER]) =
      .ok ([("title", "T")], []) ∧
    renderBody [] = ("", []) ∧
    ∃ out, buildSite [("posts/empty.md", DELIMITER :: ["title: T"] ++ [DELIMITER])] =
      .ok out :=
  empty_body_accepted "posts/empty.md" ["title: T"] (by decide)

theorem not_ws_of_digit {c : Char} (h : c.isDigit = true) : isWsChar c = false := by
  by_contra hw
  rw [Bool.not_eq_false] at hw
  simp [isWsChar] at hw
  rcases hw with (rfl | rfl) | rfl <;> exact absurd h (by decide)

theorem dropLeadingWs_eq_self {cs : List Char}
    (h : ∀ c, cs.head? = some c → isWsChar c = false) : dropLeadingWs cs = cs := by
  cases cs with
  | nil => rfl
  | cons c cs => simp [dropLeadingWs, h c rfl]

theorem trimChars_eq_self {cs : List Char}
    (h1 : ∀ c, cs.head? = some c → isWsChar c = false)
    (h2 : ∀ c, cs.getLast? = some c → isWsChar c = false) : trimChars cs = cs := by
  unfold trimChars
  rw [dropLeadingWs_eq_self h1]
  rw [dropLeadingWs_eq_self (by simpa using h2), List.reverse_reverse]

theorem takeWhile_append_all {p : Char → Bool} (xs ys : List Char)
    (h : ∀ x ∈ xs, p x = true) :
    (xs ++ ys).takeWhile p = xs ++ ys.takeWhile p := by
  induction xs with
  | nil => rfl
  | cons x xs ih =>
    have hx : p x = true := h x (List.mem_cons_self x xs)
    simp only [List.cons_append, List.takeWhile_cons, hx, if_true]
    rw [ih (fun a ha => h a (List.mem_cons_of_mem x ha))]

theorem parseDuration_digits (ds : List Char) (h1 : ds ≠ [])
    (h2 : ∀ c ∈ ds, c.isDigit = true) :
    parseDuration (ds ++ ['m', 'i', 'n']).asString =
      some (ds.foldl (fun n c => n * 10 + (c.toNat - 48)) 0) := by
  have htrim : trimChars (ds ++ ['m', 'i', 'n']) = ds ++ ['m', 'i', 'n'] := by
    apply trimChars_eq_self
    · intro c hc
      cases ds with
      | nil => exact absurd rfl h1
      | cons d ds' =>
        simp only [List.cons_append, List.head?_cons, Option.some.injEq] at hc
        exact not_ws_of_digit (hc ▸ h2 d (List.mem_cons_self d ds'))
    · intro c hc
      have hlast : (ds ++ ['m', 'i', 'n']).getLast? = some 'n' := by
        have hassoc : ds ++ ['m', 'i', 'n'] = (ds ++ ['m', 'i']) ++ ['n'] := by simp
        rw [hassoc, List.getLast?_concat]
      rw [hlast] at hc
      cases hc
      decide
  have hmin : List.takeWhile (fun c => c.isDigit) (['m', 'i', 'n'] : List Char) = [] := by
    decide
  have htake : (ds ++ ['m', 'i', 'n']).takeWhile (·.isDigit) = ds := by
    rw [takeWhile_append_all ds _ h2, hmin, List.append_nil]
  have hdrop : (ds ++ ['m', 'i', 'n']).drop ds.length = ['m', 'i', 'n'] :=
    List.drop_left ds _
  simp only [parseDuration]
  have hts : ((ds ++ ['m', 'i', 'n']).asString).toList = ds ++ ['m', 'i', 'n'] := rfl
  rw [hts, htrim, htake, hdrop]
  simp only [if_pos (Or.inl rfl)]
  simp [digitsVal, h1, List.all_eq_true.mpr h2]

/-- C9: the `durationMinutes` field of a `Post` is populated from the
`duration` frontmatter key: it is absent when the key is absent, and when the
key holds a digit string followed by `min` it is the integer those digits
denote — an integer reading-time estimate in minutes. -/
theorem durationMinutes_from_duration_key (path : String) (fm : Frontmatter)
    (body : List String) (ds : List Char) (h1 : ds ≠ [])
    (h2 : ∀ c ∈ ds, c.isDigit = true) :
    ((mkPost path fm body).durationMinutes =
      (getMeta fm "duration").bind parseDuration) ∧
    (getMeta fm "duration" = none → (mkPost path fm body).durationMinutes = none) ∧
    (getMeta fm "duration" = some (ds ++ ['m', 'i', 'n']).asString →
      (mkPost path fm body).durationMinutes =
        some (ds.foldl (fun n c => n * 10 + (c.toNat - 48)) 0)) := by
  refine ⟨rfl, ?_, ?_⟩
  · intro h
    simp [mkPost, h]
  · intro h
    simp [mkPost, h, parseDuration_digits ds h1 h2]

/-- Witness for C9: `duration: 20min` yields twenty minutes, and an absent key
yields no estimate. -/
theorem durationMinutes_from_duration_key_witness :
    (mkPost "p.md" [("duration", "20min")] []).durationMinutes = some 20 ∧
    (mkPost "p.md" [("title", "x")] []).durationMinutes = none :=
  ⟨(durationMinutes_from_duration_key "p.md" [("duration", "20min")] []
      ['2', '0'] (by decide) (by decide)).2.2 (by decide),
   (durationMinutes_from_duration_key "p.md" [("title", "x")] []
      ['2', '0'] (by decide) (by decide)).2.1 (by decide)⟩

/-- C10: every shipped content file starts at its first line with the `---`
delimiter, extraction succeeds (the block is closed) with a non-empty metadata
record — so over this corpus the extractor's empty-metadata and
`MalformedMetadataError` branches are unreachable — and the record supplies a
non-empty title, a parseable calendar date, `lang` `zh`, a parseable duration
and a non-empty subtitle, followed by a non-empty body. -/
theorem corpus_frontmatter_invariant :
    corpusFiles.length = 11 ∧ corpusFiles.all corpusFileOk = true := by
  exact ⟨rfl, by decide⟩

/-! ## Renderer lemmas -/

theorem foldl_renderLine_infence (code : List String) :
    ∀ (html : String) (ws : List RenderWarning) (lang : String) (acc : List String),
      (∀ l ∈ code, isFence l = false) →
      code.foldl renderLine ⟨html, ws, some (lang, acc)⟩ =
        ⟨html, ws, some (lang, code.reverse ++ acc)⟩ := by
  induction code with
  | nil => intro html ws lang acc _; rfl
  | cons line rest ih =>
    intro html ws lang acc h
    have hl : isFence line = false := h line (List.mem_cons_self line rest)
    have hstep : renderLine ⟨html, ws, some (lang, acc)⟩ line =
        ⟨html, ws, some (lang, line :: acc)⟩ := by
      simp [renderLine, hl]
    rw [List.foldl_cons, hstep,
      ih html ws lang (line :: acc) (fun l hl2 => h l (List.mem_cons_of_mem line hl2))]
    simp

theorem isFence_marker_append (s : String) : isFence (fenceMarker ++ s) = true := by
  unfold isFence
  have h : (fenceMarker ++ s).toList = fenceMarker.toList ++ s.toList :=
    String.data_append fenceMarker s
  rw [h]
  exact List.isPrefixOf_iff_prefix.mpr (List.prefix_append _ _)

theorem fenceLang_marker_append (s : String) :
    fenceLang (fenceMarker ++ s) = (trimChars s.toList).asString := by
  unfold fenceLang
  have h : (fenceMarker ++ s).toList = fenceMarker.toList ++ s.toList :=
    String.data_append fenceMarker s
  rw [h, List.drop_left' (by rfl : fenceMarker.toList.length = 3)]

theorem renderBody_fenced (lang : String) (code : List String)
    (hcode : ∀ l ∈ code, isFence l = false) :
    renderBody ((fenceMarker ++ lang) :: code ++ [fenceMarker]) =
      renderCodeBlock (trimChars lang.toList).asString code := by
  have hopen : renderLine ⟨"", [], none⟩ (fenceMarker ++ lang) =
      ⟨"", [], some ((trimChars lang.toList).asString, [])⟩ := by
    simp [renderLine, isFence_marker_append, fenceLang_marker_append]
  have hfen : isFence fenceMarker = true := by decide
  have hclose : renderLine
      ⟨"", [], some ((trimChars lang.toList).asString, code.reverse ++ [])⟩ fenceMarker =
      ⟨"" ++ (renderCodeBlock (trimChars lang.toList).asString code).1,
       [] ++ (renderCodeBlock (trimChars lang.toList).asString code).2, none⟩ := by
    simp [renderLine, hfen]
  simp only [renderBody, List.foldl_cons, List.foldl_append, List.foldl_nil]
  rw [hopen, foldl_renderLine_infence code "" [] ((trimChars lang.toList).asString) [] hcode,
    hclose]
  simp

/-- C7: a fenced code block labeled `typescript` renders with
syntax-highlighting markup and no warning, while a block labeled with a
language that has no highlighting grammar renders as plain preformatted text
with only a logged `unsupportedHighlightLanguage` warning — rendering is total,
never a build failure — and link resolution always retains the link text
as-is, so unresolvable internal links are non-fatal. -/
theorem codeBlock_highlight_fallback (lang : String) (code : List String)
    (hlang : (trimChars lang.toList).asString ∉ knownLangs)
    (hcode : ∀ l ∈ code, isFence l = false) :
    renderBody ((fenceMarker ++ "typescript") :: code ++ [fenceMarker]) =
      ("<pre class=\"language-typescript\"><code class=\"language-typescript\">" ++
        String.intercalate "\n" (code.map escapeHtml) ++ "</code></pre>", []) ∧
    renderBody ((fenceMarker ++ lang) :: code ++ [fenceMarker]) =
      ("<pre><code>" ++ String.intercalate "\n" (code.map escapeHtml) ++ "</code></pre>",
        [.unsupportedHighlightLanguage (trimChars lang.toList).asString]) ∧
    (∀ routes href, (resolveLink routes href).1 = href) := by
  refine ⟨?_, ?_, ?_⟩
  · rw [renderBody_fenced "typescript" code hcode]
    have ht : (trimChars "typescript".toList).asString = "typescript" := by decide
    rw [ht]
    have hmem : knownLangs.contains "typescript" = true := by decide
    simp only [renderCodeBlock, hmem, if_true]
    have hlit : "<pre class=\"language-" ++ "typescript" ++ "\"><code class=\"language-" ++
        "typescript" ++ "\">" =
        "<pre class=\"language-typescript\"><code class=\"language-typescript\">" := rfl
    rw [hlit]
  · rw [renderBody_fenced lang code hcode]
    have hmem : knownLangs.contains ((trimChars lang.toList).asString) = false := by
      rw [← Bool.not_eq_true]
      intro hc
      exact hlang (List.elem_iff.mp hc)
    simp only [renderCodeBlock, hmem, if_false, Bool.false_eq_true]
  · intro routes href
    unfold resolveLink
    split <;> rfl

/-- Witness for C7, spec Scenario C: a `typescript` block is highlighted, a
`made-up-lang` block falls back to plain preformatted text with a warning. -/
theorem codeBlock_highlight_fallback_witness :
    renderBody ((fenceMarker ++ "typescript") :: ["const x = 1"] ++ [fenceMarker]) =
      ("<pre class=\"language-typescript\"><code class=\"language-typescript\">" ++
        String.intercalate "\n" (["const x = 1"].map escapeHtml) ++ "</code></pre>", []) ∧
    renderBody ((fenceMarker ++ "made-up-lang") :: ["const x = 1"] ++ [fenceMarker]) =
      ("<pre><code>" ++ String.intercalate "\n" (["const x = 1"].map escapeHtml) ++
        "</code></pre>",
        [.unsupportedHighlightLanguage (trimChars "made-up-lang".toList).asString]) ∧
    (∀ routes href, (resolveLink routes href).1 = href) :=
  codeBlock_highlight_fallback "made-up-lang" ["const x = 1"] (by decide) (by decide)

/-! ## Route Materializer path algebra -/

theorem asString_data (s : String) : s.data.asString = s := by
  cases s
  rfl

theorem intercalate_go_data (sep : String) (as : List String) :
    ∀ acc : String, (String.intercalate.go acc sep as).data =
      acc.data ++ (as.map (fun a => sep.data ++ a.data)).flatten := by
  induction as with
  | nil => intro acc; simp [String.intercalate.go]
  | cons a as ih =>
    intro acc
    simp only [String.intercalate.go, List.map_cons, List.flatten]
    rw [ih (acc ++ sep ++ a)]
    simp [String.data_append, List.append_assoc]

/-- Character-level form of a `/`-joined segment list. -/
def joinSegsChars (sep : Char) : List (List Char) → List Char
  | [] => []
  | [s] => s
  | s :: ss => s ++ sep :: joinSegsChars sep ss

theorem join_map_slash (a : String) (as : List String) :
    a.data ++ (as.map (fun b => "/".data ++ b.data)).flatten =
      joinSegsChars '/' (a.data :: as.map String.data) := by
  induction as generalizing a with
  | nil => simp [joinSegsChars]
  | cons b bs ih =>
    simp only [List.map_cons, List.flatten, joinSegsChars]
    rw [← ih b]
    simp

theorem intercalate_slash_data (xs : List String) :
    (String.intercalate "/" xs).data = joinSegsChars '/' (xs.map String.data) := by
  cases xs with
  | nil => rfl
  | cons a as =>
    rw [show String.intercalate "/" (a :: as) = String.intercalate.go a "/" as from rfl]
    rw [intercalate_go_data "/" as a, join_map_slash a as, List.map_cons]

theorem splitChars_no_sep {sep : Char} {cs : List Char} (h : sep ∉ cs) :
    splitChars sep cs = [cs] := by
  induction cs with
  | nil => rfl
  | cons c cs ih =>
    have hc : c ≠ sep := fun he => h (he ▸ List.mem_cons_self c cs)
    have hcs : sep ∉ cs := fun hm => h (List.mem_cons_of_mem c hm)
    simp [splitChars, hc, ih hcs]

theorem splitChars_append_sep {sep : Char} (s tail : List Char) (h : sep ∉ s) :
    splitChars sep (s ++ sep :: tail) = s :: splitChars sep tail := by
  induction s with
  | nil => simp [splitChars]
  | cons c cs ih =>
    have hc : c ≠ sep := fun he => h (he ▸ List.mem_cons_self c cs)
    have hcs : sep ∉ cs := fun hm => h (List.mem_cons_of_mem c hm)
    rw [List.cons_append]
    simp only [splitChars, ih hcs]
    simp [hc]

theorem splitChars_join {sep : Char} :
    ∀ segs : List (List Char), segs ≠ [] → (∀ s ∈ segs, sep ∉ s) →
      splitChars sep (joinSegsChars sep segs) = segs := by
  intro segs
  induction segs with
  | nil => intro h; exact absurd rfl h
  | cons a rest ih =>
    intro _ h
    cases rest with
    | nil => exact splitChars_no_sep (h a (List.mem_cons_self a []))
    | cons b bs =>
      have ha : sep ∉ a := h a (List.mem_cons_self a (b :: bs))
      rw [show joinSegsChars sep (a :: b :: bs) = a ++ sep :: joinSegsChars sep (b :: bs)
        from rfl]
      rw [splitChars_append_sep a _ ha,
        ih (by simp) (fun s hs => h s (List.mem_cons_of_mem a hs))]

theorem splitPath_intercalate (segs : List String) (hne : segs ≠ [])
    (h : ∀ s ∈ segs, '/' ∉ s.data) :
    splitPath (String.intercalate "/" segs) = segs := by
  unfold splitPath
  rw [show (String.intercalate "/" segs).toList = (String.intercalate "/" segs).data
    from rfl]
  rw [intercalate_slash_data]
  rw [splitChars_join (segs.map String.data) (by simpa using hne) ?hmem]
  case hmem =>
    intro s hs
    obtain ⟨x, hx, rfl⟩ := List.mem_map.mp hs
    exact h x hx
  rw [List.map_map]
  have : (List.asString ∘ String.data) = id := funext fun s => asString_data s
  rw [this, List.map_id]

theorem isPrefixOf_append_self (l1 l2 : List Char) : l1.isPrefixOf (l1 ++ l2) = true :=
  List.isPrefixOf_iff_prefix.mpr (List.prefix_append l1 l2)

theorem dropSuffixChars_append (t cs : List Char) : dropSuffixChars t (cs ++ t) = some cs := by
  unfold dropSuffixChars
  rw [List.reverse_append, if_pos (isPrefixOf_append_self t.reverse cs.reverse),
    List.drop_left' (List.length_reverse t), List.reverse_reverse]

theorem stripMdExt_append (p : String) : stripMdExt (p ++ ".md") = p := by
  unfold stripMdExt
  rw [show (p ++ ".md").toList = p.data ++ ['.', 'm', 'd'] from String.data_append p ".md",
    show ".md".toList = ['.', 'm', 'd'] from rfl, dropSuffixChars_append ['.', 'm', 'd'] p.data]
  exact asString_data p

theorem joinSegsChars_concat {sep : Char} :
    ∀ (xs : List (List Char)), xs ≠ [] → ∀ y,
      joinSegsChars sep (xs ++ [y]) = joinSegsChars sep xs ++ sep :: y := by
  intro xs
  induction xs with
  | nil => intro h; exact absurd rfl h
  | cons a rest ih =>
    intro _ y
    cases rest with
    | nil => rfl
    | cons b bs =>
      have e1 : joinSegsChars sep ((a :: b :: bs) ++ [y]) =
          a ++ sep :: joinSegsChars sep ((b :: bs) ++ [y]) := rfl
      have e2 : joinSegsChars sep (a :: b :: bs) =
          a ++ sep :: joinSegsChars sep (b :: bs) := rfl
      rw [e1, ih (by simp) y, e2]
      simp

theorem intercalate_slash_concat (segs : List String) (hne : segs ≠ []) (y : String) :
    String.intercalate "/" segs ++ "/" ++ y = String.intercalate "/" (segs ++ [y]) := by
  apply String.ext
  rw [String.data_append, String.data_append, intercalate_slash_data,
    intercalate_slash_data, List.map_append, List.map_cons, List.map_nil,
    joinSegsChars_concat (segs.map String.data) (by simpa using hne) y.data]
  simp

theorem routeOfPath_plain (segs : List String) (hne : segs ≠ [])
    (h : ∀ s ∈ segs, '/' ∉ s.data) (hlast : segs.getLast? ≠ some "index") :
    routeOfPath (String.intercalate "/" segs ++ ".md") =
      "/" ++ String.intercalate "/" segs := by
  unfold routeOfPath routeSegs
  rw [stripMdExt_append, splitPath_intercalate segs hne h]
  have hb : (segs.getLast? == some "index") = false := by
    rw [beq_eq_false_iff_ne]
    exact hlast
  simp [hb]

theorem routeOfPath_index (segs : List String) (hne : segs ≠ [])
    (h : ∀ s ∈ segs, '/' ∉ s.data) :
    routeOfPath (String.intercalate "/" segs ++ "/index.md") =
      "/" ++ String.intercalate "/" segs := by
  have hsplit : String.intercalate "/" segs ++ "/index.md" =
      String.intercalate "/" (segs ++ ["index"]) ++ ".md" := by
    rw [← intercalate_slash_concat segs hne "index"]
    apply String.ext
    simp [String.data_append]
  rw [hsplit]
  unfold routeOfPath routeSegs
  rw [stripMdExt_append, splitPath_intercalate (segs ++ ["index"]) (by simp) ?hmem]
  case hmem =>
    intro s hs
    rcases List.mem_append.mp hs with hs | hs
    · exact h s hs
    · simp only [List.mem_singleton] at hs
      subst hs
      decide
  simp [List.getLast?_concat, List.dropLast_concat]

/-- The content file of spec Scenario A: `posts/hello-world.md` with title
`Hello` and date `2024-01-01`. -/
def helloWorldFile : List String :=
  ["---", "title: Hello", "date: 2024-01-01", "---"]

/-- C5: the Route Materializer maps directory nesting to URL path segments
(for `/`-free segments, a file `a/b/….md` maps to `/a/b/…`) and maps an
`index` file to its directory's own path (`a/b/…/index.md` also maps to
`/a/b/…`); in particular `posts/hello-world.md` yields exactly the route
`/posts/hello-world`, and building that file with title `Hello` renders a page
containing the text `Hello`. -/
theorem route_mapping_and_scenario_a (segs : List String) (hne : segs ≠ [])
    (h : ∀ s ∈ segs, '/' ∉ s.data) (hlast : segs.getLast? ≠ some "index") :
    routeOfPath (String.intercalate "/" segs ++ ".md") =
      "/" ++ String.intercalate "/" segs ∧
    routeOfPath (String.intercalate "/" segs ++ "/index.md") =
      "/" ++ String.intercalate "/" segs ∧
    routeOfPath "posts/hello-world.md" = "/posts/hello-world" ∧
    (∃ pre suf, buildSite [("posts/hello-world.md", helloWorldFile)] =
      .ok [("/posts/hello-world", pre ++ "Hello" ++ suf)]) :=
  ⟨routeOfPath_plain segs hne h hlast, routeOfPath_index segs hne h,
   by decide, ⟨"<main><h1>", "</h1></main>", by rfl⟩⟩

/-- Witness for C5 at the segments of Scenario A. -/
theorem route_mapping_and_scenario_a_witness :
    routeOfPath (String.intercalate "/" ["posts", "hello-world"] ++ ".md") =
      "/" ++ String.intercalate "/" ["posts", "hello-world"] ∧
    routeOfPath (String.intercalate "/" ["posts", "hello-world"] ++ "/index.md") =
      "/" ++ String.intercalate "/" ["posts", "hello-world"] ∧
    routeOfPath "posts/hello-world.md" = "/posts/hello-world" ∧
    (∃ pre suf, buildSite [("posts/hello-world.md", helloWorldFile)] =
      .ok [("/posts/hello-world", pre ++ "Hello" ++ suf)]) :=
  route_mapping_and_scenario_a ["posts", "hello-world"] (by decide) (by decide) (by decide)

end Kele
